import Mathlib

set_option maxHeartbeats 1000000

/-! Shallow embedding of the nonogram single-line constraint engine
(`spaces/node.rs`, `spaces/hint.rs`): tri-state cells, the window
validity checker `HSoln::is_valid`, the window splitter `HSoln::split`
with its `RangeQueue` bookkeeping, and the initial window generator
`Hint::gen`.  Machine integers (`usize`) are modelled as `Nat`; every
subtraction that can underflow in the source and every `assert!` is
guarded explicitly, and a guard failure yields `none` (the fatal panic
path of a debug build).  Out-of-bounds slicing in `partition` likewise
yields `none`. -/

inductive Cell where
  | unknown
  | empty
  | filled
deriving DecidableEq, Repr

structure HSoln where
  offset : Nat
  length : Nat
deriving DecidableEq, Repr

structure Hint where
  hint : Nat
  solutions : List HSoln
deriving DecidableEq, Repr

/-- `Node::is_solved`: the solution is not `UNKNOWN`. -/
def Node.is_solved (c : Cell) : Bool :=
  match c with
  | Cell.unknown => false
  | _ => true

/-- `Node::solve`: asserts the node is not yet solved (`none` = assertion
failure), then sets `FILLED` or `EMPTY` according to the flag. -/
def Node.solve (c : Cell) (filled : Bool) : Option Cell :=
  if Node.is_solved c then none
  else some (if filled then Cell.filled else Cell.empty)

/-- `Node::solve_filled`. -/
def Node.solve_filled (c : Cell) : Option Cell := Node.solve c true

/-- `Node::solve_empty`. -/
def Node.solve_empty (c : Cell) : Option Cell := Node.solve c false

/-- `Node::solution_is_filled`: asserts the node is solved (`none` =
assertion failure), then tests the solution against `FILLED`. -/
def Node.solution_is_filled (c : Cell) : Option Bool :=
  if Node.is_solved c then some (c == Cell.filled) else none

/-- `Node::solution_is_empty`: asserts the node is solved (`none` =
assertion failure), then tests the solution against `EMPTY`. -/
def Node.solution_is_empty (c : Cell) : Option Bool :=
  if Node.is_solved c then some (c == Cell.empty) else none

/-- `HSoln::partition`: the slice `nodes[offset .. offset + length]`;
`none` models the slice-bounds panic. -/
def HSoln.partition (s : HSoln) (nodes : List Cell) : Option (List Cell) :=
  if s.offset + s.length ≤ nodes.length then
    some ((nodes.drop s.offset).take s.length)
  else none

/-- The scan loop of `HSoln::is_valid` over the partitioned window.
`i` is the index of the head of the remaining list, `L` the window
length; `min_filled` / `max_filled` mirror the two `Option<usize>`
trackers.  Unsolved nodes are skipped; an `EMPTY` node returns `false`
at once; `FILLED` nodes update the trackers or return `false` exactly as
the `match min_filled` in the source; the base case is the final
`match max_filled` check.  (No `usize` subtraction here can underflow:
`j` is always an index seen earlier than `i`, and `j < L`.) -/
def is_valid_go (hint L : Nat) : List Cell → Nat → Option Nat → Option Nat → Bool
  | [], _, _, max_filled =>
      match max_filled with
      | some j => if L - j > hint ∨ j > hint then false else true
      | none => true
  | c :: rest, i, min_filled, max_filled =>
      match c with
      | Cell.empty => false
      | Cell.unknown => is_valid_go hint L rest (i + 1) min_filled max_filled
      | Cell.filled =>
          match min_filled with
          | some j =>
              if i - j ≥ hint then false
              else is_valid_go hint L rest (i + 1) (some j) (some i)
          | none =>
              if i ≥ hint then false
              else is_valid_go hint L rest (i + 1) (some i) max_filled

/-- `HSoln::is_valid`. -/
def HSoln.is_valid (s : HSoln) (nodes : List Cell) (hint : Nat) : Option Bool :=
  match s.partition nodes with
  | none => none
  | some w => some (is_valid_go hint w.length w 0 none none)

/-- `RangeQueue::push`: extend the back pair when `value` is adjacent to
its end, otherwise assert `value > back.1` (`none` = assertion failure)
and append a fresh pair.  The queue front is the list head. -/
def RangeQueue.push (q : List (Nat × Nat)) (value : Nat) : Option (List (Nat × Nat)) :=
  match q.getLast? with
  | some (a, b) =>
      if value = b + 1 then some (q.dropLast ++ [(a, value)])
      else if value > b then some (q ++ [(value, value)])
      else none
  | none => some [(value, value)]

/-- The `while let Some(&(i, j)) = self.queue.front()` loop of
`RangeQueue::map_and_clean`.  Each `usize` subtraction of the source is
guarded (`none` = underflow panic); the debug `println!` is a pure side
effect and is dropped.  An iteration that does not pop the front always
breaks (when `clean_all` is false, `i > max - range` forces
`min = i ≥ max - range`), so the recursion is structural on the queue.
Returns `(solutions, min, remaining queue)`. -/
def map_and_clean_go (range max : Nat) (clean_all : Bool) :
    List (Nat × Nat) → Nat → List (Nat × Nat) →
    Option (List (Nat × Nat) × Nat × List (Nat × Nat))
  | [], min, solutions => some (solutions, min, [])
  | (i, j) :: restQ, min, solutions =>
      -- `range < max - min` recomputes `max - min` each iteration
      if max < min then none
      else
        let step : Option (List (Nat × Nat)) :=
          if range < max - min then
            -- `max - i > range`
            if max < i then none
            else if max - i > range then
              -- `range + i - min`
              if range + i < min then none
              else some (solutions ++ [(min, range + i - min)])
            else
              -- `max - 1 - min` (left associated: `(max - 1) - min`)
              if max = 0 then none
              else if max - 1 < min then none
              else some (solutions ++ [(min, max - 1 - min)])
          else some solutions
        match step with
        | none => none
        | some solutions' =>
            -- `i <= max - range`, evaluated before `|| clean_all`
            if max < range then none
            else
              let doPop := i ≤ max - range
              let min' := if doPop then j + 2 else i
              if doPop ∨ clean_all = true then
                if min' ≥ max - range ∧ clean_all = false then
                  some (solutions', min', restQ)
                else map_and_clean_go range max clean_all restQ min' solutions'
              else some (solutions', min', (i, j) :: restQ)

/-- `RangeQueue::map_and_clean`: the outer `if max - min > range` guard
around the loop; when it fails the queue is untouched and no solutions
are produced. -/
def RangeQueue.map_and_clean (q : List (Nat × Nat)) (range min max : Nat)
    (clean_all : Bool) :
    Option (List (Nat × Nat) × Nat × List (Nat × Nat)) :=
  if max < min then none
  else if max - min > range then map_and_clean_go range max clean_all q min []
  else some ([], min, q)

/-- The scan loop of `HSoln::split` over the partitioned window.
`off` is the window's own offset (added to every emitted sub-window),
`i` the index of the head of the remaining list; the state is
`(min, ranges, splits)`.  Unsolved nodes are skipped by the iterator
filter; the `EMPTY` and `FILLED` branches mirror the source, with each
`usize` subtraction guarded.  In the `EMPTY` branch `min` is
unconditionally reset to `i + 1` afterwards (the source overwrites the
`new_min` returned by `map_and_clean`).  Returns the final
`(min, ranges, splits)`. -/
def split_go (hint off : Nat) :
    List Cell → Nat → Nat → List (Nat × Nat) → List HSoln →
    Option (Nat × List (Nat × Nat) × List HSoln)
  | [], _, min, ranges, splits => some (min, ranges, splits)
  | c :: rest, i, min, ranges, splits =>
      match c with
      | Cell.unknown => split_go hint off rest (i + 1) min ranges splits
      | Cell.empty =>
          -- `i - min` underflow guard
          if i < min then none
          else if i - min > hint then
            if ranges = [] then
              split_go hint off rest (i + 1) (i + 1) ranges
                (splits ++ [⟨off + min, i - min⟩])
            else
              match RangeQueue.map_and_clean ranges hint min (i + 1) true with
              | none => none
              | some (captures, _new_min, ranges') =>
                  split_go hint off rest (i + 1) (i + 1) ranges'
                    (splits ++ captures.map fun p => ⟨off + p.1, p.2⟩)
          else if i - min = hint then
            split_go hint off rest (i + 1) (i + 1) ranges
              (splits ++ [⟨off + min, hint⟩])
          else
            split_go hint off rest (i + 1) (i + 1) ranges splits
      | Cell.filled =>
          -- `i - min` underflow guard
          if i < min then none
          else
            let bumped : Option (Nat × List (Nat × Nat) × List HSoln) :=
              if i - min = hint then
                match ranges with
                | (j, k) :: restQ =>
                    if j = min then some (k + 1, restQ, splits)
                    else some (min + 1, ranges, splits)
                | [] => some (min + 1, ranges, splits)
              else if i - min > hint then
                if ranges = [] then
                  -- `min - i - 1` (left associated), underflow guard
                  if min < i + 1 then none
                  else some (min, ranges, splits ++ [⟨off + min, min - i - 1⟩])
                else
                  match RangeQueue.map_and_clean ranges hint min i false with
                  | none => none
                  | some (captures, new_min, ranges') =>
                      some (new_min, ranges',
                        splits ++ captures.map fun p => ⟨off + p.1, p.2⟩)
              else some (min, ranges, splits)
            match bumped with
            | none => none
            | some (min', ranges', splits') =>
                match RangeQueue.push ranges' i with
                | none => none
                | some ranges'' => split_go hint off rest (i + 1) min' ranges'' splits'

/-- `HSoln::split`: partition, scan, final `map_and_clean` over the tail
(bound `nodes.len() + 1`, `clean_all` set), then the trailing
`nodes.len() - min >= hint` emission (with its underflow guard). -/
def HSoln.split (s : HSoln) (nodes : List Cell) (hint : Nat) : Option (List HSoln) :=
  match s.partition nodes with
  | none => none
  | some w =>
      match split_go hint s.offset w 0 0 [] [] with
      | none => none
      | some (min, ranges, splits) =>
          match RangeQueue.map_and_clean ranges hint min (w.length + 1) true with
          | none => none
          | some (captures, min', _) =>
              let splits' := splits ++ captures.map fun p => ⟨s.offset + p.1, p.2⟩
              -- `nodes.len() - min` underflow guard
              if w.length < min' then none
              else if w.length - min' ≥ hint then
                some (splits' ++ [⟨min' + s.offset, w.length - min'⟩])
              else some splits'

/-- The loop of `Hint::gen`: one `Hint` per hint value, each with the
single window `(offset, length + hint)`, `offset` advancing by
`hint + 1`. -/
def Hint.genGo : List Nat → Nat → Nat → List Hint
  | [], _, _ => []
  | h :: restH, len, off =>
      ⟨h, [⟨off, len + h⟩]⟩ :: Hint.genGo restH len (off + (h + 1))

/-- `Hint::gen`: `length = nodes - (Σ (hᵢ + 1) - 1)` with both `usize`
subtractions guarded (`Σ (hᵢ+1) = 0` underflows the inner `- 1`;
`nodes < Σ (hᵢ+1) - 1` underflows the outer subtraction), then the
generation loop from offset `0`. -/
def Hint.gen (hints : List Nat) (nodes : Nat) : Option (List Hint) :=
  let s := (hints.map fun item => item + 1).sum
  if s = 0 then none
  else if nodes < s - 1 then none
  else some (Hint.genGo hints (nodes - (s - 1)) 0)


/-! ### Specification-side predicates for the validity checker

The four infeasibility conditions of the window-validity rule, stated
over the partitioned window `w` with plain quantifiers and two small
index functions that are independent of the scan. -/

/-- Index of the first `filled` cell, if any. -/
def firstFilledIdx? : List Cell → Option Nat
  | [] => none
  | c :: rest =>
      if c = Cell.filled then some 0 else (firstFilledIdx? rest).map (· + 1)

/-- Index of the last `filled` cell, if any. -/
def lastFilledIdx? : List Cell → Option Nat
  | [] => none
  | c :: rest =>
      match lastFilledIdx? rest with
      | some k => some (k + 1)
      | none => if c = Cell.filled then some 0 else none

/-- Condition (1): some cell inside the window is known `empty`. -/
def specEmptyCond (w : List Cell) : Prop :=
  ∃ i, w.get? i = some Cell.empty

/-- Condition (2): some `filled` cell at index `i` is at distance `≥ hint`
from the first `filled` index. -/
def specGapCond (w : List Cell) (hint : Nat) : Prop :=
  ∃ j i, firstFilledIdx? w = some j ∧ w.get? i = some Cell.filled ∧
    j < i ∧ hint ≤ i - j

/-- Condition (3): the first `filled` cell's index is `≥ hint`. -/
def specFirstCond (w : List Cell) (hint : Nat) : Prop :=
  ∃ j, firstFilledIdx? w = some j ∧ hint ≤ j

/-- Condition (4): a second-or-later `filled` cell was seen, the last one
at index `k`, and `length - k > hint` or `k > hint`. -/
def specTailCond (w : List Cell) (hint : Nat) : Prop :=
  ∃ j k, firstFilledIdx? w = some j ∧ lastFilledIdx? w = some k ∧ j < k ∧
    (hint < w.length - k ∨ hint < k)

/-- The disjunction of the four infeasibility conditions. -/
def specInvalid (w : List Cell) (hint : Nat) : Prop :=
  specEmptyCond w ∨ specGapCond w hint ∨ specFirstCond w hint ∨ specTailCond w hint

/-- The final `match max_filled` verdict, as a predicate on the tracker. -/
def endBad (hint L : Nat) : Option Nat → Prop
  | some m => hint < L - m ∨ hint < m
  | none => False

/-- The value of the `max_filled` tracker at the end of the scan, starting
from suffix `rest` at absolute index `i` with current tracker `maxF`
(every `filled` cell in `rest` overwrites it). -/
def finalMaxFilled (rest : List Cell) (i : Nat) (maxF : Option Nat) : Option Nat :=
  match lastFilledIdx? rest with
  | some k => some (i + k)
  | none => maxF

theorem finalMaxFilled_unknown (rest : List Cell) (i : Nat) (maxF : Option Nat) :
    finalMaxFilled (Cell.unknown :: rest) i maxF = finalMaxFilled rest (i + 1) maxF := by
  unfold finalMaxFilled
  cases h : lastFilledIdx? rest with
  | none => simp [lastFilledIdx?, h]
  | some k =>
      simp only [lastFilledIdx?, h]
      congr 1
      omega

theorem finalMaxFilled_filled (rest : List Cell) (i : Nat) (maxF : Option Nat) :
    finalMaxFilled (Cell.filled :: rest) i maxF = finalMaxFilled rest (i + 1) (some i) := by
  unfold finalMaxFilled
  cases h : lastFilledIdx? rest with
  | none => simp [lastFilledIdx?, h]
  | some k =>
      simp only [lastFilledIdx?, h]
      congr 1
      omega

/-- Behaviour of the validity scan once `min_filled` is set to `some j`:
it reports `false` exactly when the suffix contains an `empty` cell, or a
`filled` cell violating the gap bound against `j`, or the tracker at the
end of the scan fails the final check. -/
theorem is_valid_go_some_iff (hint L : Nat) (rest : List Cell) :
    ∀ (i j : Nat) (maxF : Option Nat),
      is_valid_go hint L rest i (some j) maxF = false ↔
        ((∃ k, rest.get? k = some Cell.empty) ∨
         (∃ k, rest.get? k = some Cell.filled ∧ hint ≤ i + k - j) ∨
         endBad hint L (finalMaxFilled rest i maxF)) := by
  induction rest with
  | nil =>
      intro i j maxF
      cases maxF with
      | none =>
          refine iff_of_false (by simp [is_valid_go]) ?_
          simp [endBad, finalMaxFilled, lastFilledIdx?]
      | some m =>
          simp only [is_valid_go, finalMaxFilled, lastFilledIdx?, endBad,
            List.get?_nil]
          constructor
          · intro hf
            split at hf
            · rename_i hcond
              exact Or.inr (Or.inr (by omega))
            · cases hf
          · rintro (⟨k, hk⟩ | ⟨k, hk, _⟩ | hb)
            · cases hk
            · cases hk
            · split
              · rfl
              · rename_i hcond
                exact absurd (by omega : L - m > hint ∨ m > hint) hcond
  | cons c rest ih =>
      intro i j maxF
      cases c with
      | empty =>
          exact iff_of_true rfl (Or.inl ⟨0, rfl⟩)
      | unknown =>
          have e1 : is_valid_go hint L (Cell.unknown :: rest) i (some j) maxF =
              is_valid_go hint L rest (i + 1) (some j) maxF := rfl
          rw [e1, ih (i + 1) j maxF, finalMaxFilled_unknown]
          constructor
          · rintro (⟨k, hk⟩ | ⟨k, hk, hle⟩ | hb)
            · exact Or.inl ⟨k + 1, hk⟩
            · exact Or.inr (Or.inl ⟨k + 1, hk, by omega⟩)
            · exact Or.inr (Or.inr hb)
          · rintro (⟨k, hk⟩ | ⟨k, hk, hle⟩ | hb)
            · cases k with
              | zero => simp at hk
              | succ k => exact Or.inl ⟨k, hk⟩
            · cases k with
              | zero => simp at hk
              | succ k => exact Or.inr (Or.inl ⟨k, hk, by omega⟩)
            · exact Or.inr (Or.inr hb)
      | filled =>
          by_cases hij : hint ≤ i - j
          · refine iff_of_true ?_ (Or.inr (Or.inl ⟨0, rfl, by omega⟩))
            simp only [is_valid_go]
            rw [if_pos (by omega : i - j ≥ hint)]
          · have e1 : is_valid_go hint L (Cell.filled :: rest) i (some j) maxF =
                is_valid_go hint L rest (i + 1) (some j) (some i) := by
              simp only [is_valid_go]
              rw [if_neg (by omega : ¬ i - j ≥ hint)]
            rw [e1, ih (i + 1) j (some i), finalMaxFilled_filled]
            constructor
            · rintro (⟨k, hk⟩ | ⟨k, hk, hle⟩ | hb)
              · exact Or.inl ⟨k + 1, hk⟩
              · exact Or.inr (Or.inl ⟨k + 1, hk, by omega⟩)
              · exact Or.inr (Or.inr hb)
            · rintro (⟨k, hk⟩ | ⟨k, hk, hle⟩ | hb)
              · cases k with
                | zero => simp at hk
                | succ k => exact Or.inl ⟨k, hk⟩
              · cases k with
                | zero => exact absurd (by omega : hint ≤ i - j) hij
                | succ k => exact Or.inr (Or.inl ⟨k, hk, by omega⟩)
              · exact Or.inr (Or.inr hb)

/-- Behaviour of the validity scan from the initial state (no tracked
`filled` cell): `false` exactly when the suffix has an `empty` cell, or
its first `filled` cell sits at absolute index `≥ hint`, or a later
`filled` cell violates the gap bound, or the last `filled` cell (when
distinct from the first) fails the final check. -/
theorem is_valid_go_none_iff (hint L : Nat) (rest : List Cell) :
    ∀ i, is_valid_go hint L rest i none none = false ↔
      ((∃ k, rest.get? k = some Cell.empty) ∨
       (∃ j, firstFilledIdx? rest = some j ∧ hint ≤ i + j) ∨
       (∃ j k, firstFilledIdx? rest = some j ∧ rest.get? k = some Cell.filled ∧
          j < k ∧ hint ≤ (i + k) - (i + j)) ∨
       (∃ j k, firstFilledIdx? rest = some j ∧ lastFilledIdx? rest = some k ∧
          j < k ∧ (hint < L - (i + k) ∨ hint < i + k))) := by
  induction rest with
  | nil =>
      intro i
      refine iff_of_false (by simp [is_valid_go]) ?_
      simp [firstFilledIdx?]
  | cons c rest ih =>
      intro i
      cases c with
      | empty =>
          exact iff_of_true rfl (Or.inl ⟨0, rfl⟩)
      | unknown =>
          have e1 : is_valid_go hint L (Cell.unknown :: rest) i none none =
              is_valid_go hint L rest (i + 1) none none := rfl
          have efirst : firstFilledIdx? (Cell.unknown :: rest) =
              (firstFilledIdx? rest).map (· + 1) := by
            simp [firstFilledIdx?]
          have elast : ∀ m, lastFilledIdx? (Cell.unknown :: rest) = some m ↔
              ∃ m', lastFilledIdx? rest = some m' ∧ m = m' + 1 := by
            intro m
            cases hl : lastFilledIdx? rest with
            | none => simp [lastFilledIdx?, hl]
            | some m' => simp [lastFilledIdx?, hl, eq_comm]
          rw [e1, ih (i + 1)]
          constructor
          · rintro (⟨k, hk⟩ | ⟨j, hj, hle⟩ | ⟨j, k, hj, hk, hjk, hle⟩ |
                ⟨j, k, hj, hl, hjk, hb⟩)
            · exact Or.inl ⟨k + 1, hk⟩
            · exact Or.inr (Or.inl ⟨j + 1, by simp [efirst, hj], by omega⟩)
            · exact Or.inr (Or.inr (Or.inl
                ⟨j + 1, k + 1, by simp [efirst, hj], hk, by omega, by omega⟩))
            · exact Or.inr (Or.inr (Or.inr
                ⟨j + 1, k + 1, by simp [efirst, hj], (elast (k + 1)).mpr ⟨k, hl, rfl⟩,
                  by omega, by omega⟩))
          · rintro (⟨k, hk⟩ | ⟨j, hj, hle⟩ | ⟨j, k, hj, hk, hjk, hle⟩ |
                ⟨j, k, hj, hl, hjk, hb⟩)
            · cases k with
              | zero => simp at hk
              | succ k => exact Or.inl ⟨k, hk⟩
            · rw [efirst] at hj
              rcases Option.map_eq_some'.mp hj with ⟨j', hj', rfl⟩
              exact Or.inr (Or.inl ⟨j', hj', by omega⟩)
            · rw [efirst] at hj
              rcases Option.map_eq_some'.mp hj with ⟨j', hj', rfl⟩
              cases k with
              | zero => simp at hk
              | succ k =>
                  exact Or.inr (Or.inr (Or.inl ⟨j', k, hj', hk, by omega, by omega⟩))
            · rw [efirst] at hj
              rcases Option.map_eq_some'.mp hj with ⟨j', hj', rfl⟩
              rcases (elast k).mp hl with ⟨k', hk', rfl⟩
              exact Or.inr (Or.inr (Or.inr ⟨j', k', hj', hk', by omega, by omega⟩))
      | filled =>
          have efirst : firstFilledIdx? (Cell.filled :: rest) = some 0 := by
            simp [firstFilledIdx?]
          by_cases hi : hint ≤ i
          · refine iff_of_true ?_ (Or.inr (Or.inl ⟨0, efirst, by omega⟩))
            simp only [is_valid_go]
            rw [if_pos (by omega : i ≥ hint)]
          · have e1 : is_valid_go hint L (Cell.filled :: rest) i none none =
                is_valid_go hint L rest (i + 1) (some i) none := by
              simp only [is_valid_go]
              rw [if_neg (by omega : ¬ i ≥ hint)]
            rw [e1, is_valid_go_some_iff hint L rest (i + 1) i none]
            have elast : ∀ m, lastFilledIdx? (Cell.filled :: rest) = some m ↔
                ((lastFilledIdx? rest = none ∧ m = 0) ∨
                 (∃ m', lastFilledIdx? rest = some m' ∧ m = m' + 1)) := by
              intro m
              cases hl : lastFilledIdx? rest with
              | none => simp [lastFilledIdx?, hl, eq_comm]
              | some m' => simp [lastFilledIdx?, hl, eq_comm]
            constructor
            · rintro (⟨k, hk⟩ | ⟨k, hk, hle⟩ | hb)
              · exact Or.inl ⟨k + 1, hk⟩
              · exact Or.inr (Or.inr (Or.inl
                  ⟨0, k + 1, efirst, hk, by omega, by omega⟩))
              · unfold finalMaxFilled at hb
                cases hl : lastFilledIdx? rest with
                | none => rw [hl] at hb; exact absurd hb (by simp [endBad])
                | some k =>
                    rw [hl] at hb
                    have hb' : hint < L - (i + 1 + k) ∨ hint < i + 1 + k := hb
                    exact Or.inr (Or.inr (Or.inr
                      ⟨0, k + 1, efirst, (elast (k + 1)).mpr (Or.inr ⟨k, hl, rfl⟩),
                        by omega, by omega⟩))
            · rintro (⟨k, hk⟩ | ⟨j, hj, hle⟩ | ⟨j, k, hj, hk, hjk, hle⟩ |
                  ⟨j, k, hj, hl, hjk, hb⟩)
              · cases k with
                | zero => simp at hk
                | succ k => exact Or.inl ⟨k, hk⟩
              · rw [efirst] at hj
                cases hj
                exact absurd (by omega : hint ≤ i) hi
              · rw [efirst] at hj
                cases hj
                cases k with
                | zero => omega
                | succ k =>
                    exact Or.inr (Or.inl ⟨k, hk, by omega⟩)
              · rw [efirst] at hj
                cases hj
                rcases (elast k).mp hl with ⟨_, rfl⟩ | ⟨k', hk', rfl⟩
                · omega
                · refine Or.inr (Or.inr ?_)
                  unfold finalMaxFilled
                  rw [hk']
                  exact (by omega : hint < L - (i + 1 + k') ∨ hint < i + 1 + k')
              

/-- The validity scan over a whole window reports `false` exactly when one
of the four specification conditions holds. -/
theorem is_valid_go_false_iff_specInvalid (w : List Cell) (hint : Nat) :
    is_valid_go hint w.length w 0 none none = false ↔ specInvalid w hint := by
  rw [is_valid_go_none_iff hint w.length w 0]
  unfold specInvalid specEmptyCond specGapCond specFirstCond specTailCond
  simp only [Nat.zero_add]
  constructor
  · rintro (h1 | h2 | h3 | h4)
    · exact Or.inl h1
    · exact Or.inr (Or.inr (Or.inl h2))
    · exact Or.inr (Or.inl h3)
    · exact Or.inr (Or.inr (Or.inr h4))
  · rintro (h1 | h2 | h3 | h4)
    · exact Or.inl h1
    · exact Or.inr (Or.inr (Or.inl h2))
    · exact Or.inr (Or.inl h3)
    · exact Or.inr (Or.inr (Or.inr h4))

theorem partition_pos (s : HSoln) (nodes : List Cell)
    (h : s.offset + s.length ≤ nodes.length) :
    s.partition nodes = some ((nodes.drop s.offset).take s.length) := by
  unfold HSoln.partition
  rw [if_pos h]

theorem partition_len (nodes : List Cell) (off len : Nat)
    (h : off + len ≤ nodes.length) :
    ((nodes.drop off).take len).length = len := by
  rw [List.length_take, List.length_drop]
  omega

/-- C1: for every window `(off, len)` with `off + len ≤` line length and
every hint length, the validity checker returns `false` exactly when one
of the four conditions of `specInvalid` holds on the window's cells
(known `empty` cell; a `filled` cell at distance `≥ hint` from the first
`filled` index; first `filled` index `≥ hint`; last tracked `filled`
index `k` — present only with a second-or-later `filled` cell — with
`length - k > hint` or `k > hint`), and `true` otherwise.  In
particular, on a line of length 5 with cells 0 and 3 `filled` and hint
length 3 the checker returns `false`. -/
theorem c1_is_valid_false_iff_conditions :
    (∀ (nodes : List Cell) (off len hint : Nat), off + len ≤ nodes.length →
       (HSoln.is_valid ⟨off, len⟩ nodes hint = some false ↔
          specInvalid ((nodes.drop off).take len) hint) ∧
       (HSoln.is_valid ⟨off, len⟩ nodes hint = some true ↔
          ¬ specInvalid ((nodes.drop off).take len) hint)) ∧
    HSoln.is_valid ⟨0, 5⟩
      [Cell.filled, Cell.unknown, Cell.unknown, Cell.filled, Cell.unknown] 3 =
      some false := by
  constructor
  · intro nodes off len hint h
    have hp : HSoln.is_valid ⟨off, len⟩ nodes hint =
        some (is_valid_go hint ((nodes.drop off).take len).length
          ((nodes.drop off).take len) 0 none none) := by
      unfold HSoln.is_valid
      rw [partition_pos ⟨off, len⟩ nodes h]
    have key := is_valid_go_false_iff_specInvalid ((nodes.drop off).take len) hint
    rw [hp]
    constructor
    · constructor
      · intro hf
        exact key.mp (by simpa using hf)
      · intro hc
        rw [key.mpr hc]
    · constructor
      · intro ht hc
        rw [key.mpr hc] at ht
        simp at ht
      · intro hc
        cases hB : is_valid_go hint ((nodes.drop off).take len).length
            ((nodes.drop off).take len) 0 none none with
        | false => exact absurd (key.mp hB) hc
        | true => rfl
  · rfl

theorem c1_witness :
    ((0 : Nat) + 5 ≤ ([Cell.filled, Cell.unknown, Cell.unknown, Cell.filled,
        Cell.unknown] : List Cell).length) ∧
    (HSoln.is_valid ⟨0, 5⟩ [Cell.filled, Cell.unknown, Cell.unknown, Cell.filled,
        Cell.unknown] 3 = some false ↔
      specInvalid ((([Cell.filled, Cell.unknown, Cell.unknown, Cell.filled,
        Cell.unknown] : List Cell).drop 0).take 5) 3) :=
  ⟨by decide,
    (c1_is_valid_false_iff_conditions.1
      [Cell.filled, Cell.unknown, Cell.unknown, Cell.filled, Cell.unknown]
      0 5 3 (by decide)).1⟩

theorem is_valid_go_all_unknown (hint L : Nat) (rest : List Cell) :
    ∀ i, (∀ c ∈ rest, c = Cell.unknown) →
      is_valid_go hint L rest i none none = true := by
  induction rest with
  | nil => intro i _; rfl
  | cons c rest ih =>
      intro i hall
      have hc : c = Cell.unknown := hall c (by simp)
      subst hc
      exact ih (i + 1) fun c hc => hall c (by simp [hc])

/-- C9: on a window whose cells are all `unknown`, the validity checker
returns `true` for every hint length, including hint lengths strictly
larger than the window length — no comparison of the window length
against the hint length happens when the window has no `filled` cell. -/
theorem c9_is_valid_all_unknown (nodes : List Cell) (off len hint : Nat)
    (h : off + len ≤ nodes.length)
    (hall : ∀ c ∈ (nodes.drop off).take len, c = Cell.unknown) :
    HSoln.is_valid ⟨off, len⟩ nodes hint = some true := by
  have hp : HSoln.is_valid ⟨off, len⟩ nodes hint =
      some (is_valid_go hint ((nodes.drop off).take len).length
        ((nodes.drop off).take len) 0 none none) := by
    unfold HSoln.is_valid
    rw [partition_pos ⟨off, len⟩ nodes h]
  rw [hp, is_valid_go_all_unknown hint ((nodes.drop off).take len).length
    ((nodes.drop off).take len) 0 hall]

theorem c9_witness :
    (0 : Nat) + 2 ≤ ([Cell.unknown, Cell.unknown] : List Cell).length ∧
    (2 : Nat) < 5 ∧
    HSoln.is_valid ⟨0, 2⟩ [Cell.unknown, Cell.unknown] 5 = some true :=
  ⟨by decide, by decide,
    c9_is_valid_all_unknown [Cell.unknown, Cell.unknown] 0 2 5 (by decide)
      (by decide)⟩

/-- C7: marking a cell `filled` or `empty` fails fatally iff the cell is
already solved, and otherwise moves `unknown` to the requested terminal
state; a cell reached by a successful `solve` was `unknown` and is now
solved (so there is no transition out of `filled` or `empty`); querying
the filled/empty identity fails fatally iff the cell is unsolved, and
otherwise reports the terminal state. -/
theorem c7_node_state_machine :
    ∀ (c : Cell) (flag : Bool),
      (Node.solve c flag = none ↔ Node.is_solved c = true) ∧
      (Node.is_solved c = false →
        Node.solve c flag = some (if flag then Cell.filled else Cell.empty)) ∧
      (∀ c', Node.solve c flag = some c' →
        c = Cell.unknown ∧ Node.is_solved c' = true) ∧
      (Node.solution_is_filled c = none ↔ Node.is_solved c = false) ∧
      (Node.solution_is_empty c = none ↔ Node.is_solved c = false) ∧
      (Node.is_solved c = true →
        Node.solution_is_filled c = some (c == Cell.filled) ∧
        Node.solution_is_empty c = some (c == Cell.empty)) := by
  intro c flag
  cases c <;> cases flag <;>
    simp [Node.solve, Node.is_solved, Node.solution_is_filled,
      Node.solution_is_empty]

theorem c7_witness :
    Node.solve Cell.unknown true = some Cell.filled ∧
    Node.solve Cell.unknown false = some Cell.empty ∧
    Node.solve Cell.filled true = none ∧
    Node.solution_is_filled Cell.unknown = none ∧
    Node.solution_is_filled Cell.filled = some true :=
  ⟨(c7_node_state_machine Cell.unknown true).2.1 rfl,
    (c7_node_state_machine Cell.unknown false).2.1 rfl,
    (c7_node_state_machine Cell.filled true).1.mpr rfl,
    (c7_node_state_machine Cell.unknown true).2.2.2.1.mpr rfl,
    ((c7_node_state_machine Cell.filled true).2.2.2.2.2 rfl).1⟩

theorem sum_map_add_one (hints : List Nat) :
    (hints.map fun item => item + 1).sum = hints.sum + hints.length := by
  induction hints with
  | nil => rfl
  | cons h rest ih => simp [ih]; omega

/-- C8: for a non-empty list of positive hints, generation fails fatally
(underflow) exactly when the line length is below `sum + (n - 1)`, the
hints' minimum required space; otherwise it completes normally. -/
theorem c8_gen_underflow_iff (hints : List Nat) (L : Nat)
    (h1 : hints ≠ []) (h2 : ∀ x ∈ hints, 0 < x) :
    (Hint.gen hints L = none ↔ L < hints.sum + (hints.length - 1)) ∧
    (hints.sum + (hints.length - 1) ≤ L → ∃ r, Hint.gen hints L = some r) := by
  have hlen : 1 ≤ hints.length := by
    cases hints with
    | nil => exact absurd rfl h1
    | cons a rest => simp
  have hsum : (hints.map fun item => item + 1).sum = hints.sum + hints.length :=
    sum_map_add_one hints
  have main : Hint.gen hints L = none ↔ L < hints.sum + (hints.length - 1) := by
    unfold Hint.gen
    set S : Nat := (hints.map fun item => item + 1).sum with hS
    rw [if_neg (by omega : ¬ S = 0)]
    by_cases hc : L < S - 1
    · rw [if_pos hc]
      exact iff_of_true rfl (by omega)
    · rw [if_neg hc]
      exact iff_of_false (by simp) (by omega)
  refine ⟨main, fun hle => ?_⟩
  cases hr : Hint.gen hints L with
  | none => exact absurd (main.mp hr) (by omega)
  | some r => exact ⟨r, rfl⟩

theorem c8_witness :
    Hint.gen [3, 7] 10 = none ∧
    (10 : Nat) < ([3, 7] : List Nat).sum + (([3, 7] : List Nat).length - 1) :=
  ⟨(c8_gen_underflow_iff [3, 7] 10 (by decide) (by decide)).1.mpr (by decide),
    by decide⟩

/-- C10: generating from the empty hint sequence fails fatally for every
line length (the inner `Σ (hᵢ+1) - 1` underflows at `0 - 1`), although
the precondition `L ≥ sum + (n - 1)` is vacuously satisfied. -/
theorem c10_gen_empty_hints :
    ∀ L : Nat, Hint.gen [] L = none ∧
      ([] : List Nat).sum + (([] : List Nat).length - 1) ≤ L :=
  fun L => ⟨rfl, Nat.zero_le L⟩

/-- C5: on a line of length 10 with cells 1 and 6 `empty` and the rest
`unknown`, splitting the full-line window with hint length 2 yields
exactly the sub-windows `(2, 4)` and `(7, 3)`, in scan order. -/
theorem c5_split_concrete :
    HSoln.split ⟨0, 10⟩
      [Cell.unknown, Cell.empty, Cell.unknown, Cell.unknown, Cell.unknown,
       Cell.unknown, Cell.empty, Cell.unknown, Cell.unknown, Cell.unknown] 2 =
      some [⟨2, 4⟩, ⟨7, 3⟩] := rfl

/-- C3: the claim that the splitter has no failure path is false on the
code: on a window of length 5 that is all `unknown` except a `filled`
cell at index 3, with hint length 1, the `min - i - 1` expression in the
no-pending-ranges emission branch underflows (`0 - 3 - 1` in `usize`),
a fatal panic — modelled here as the `none` result. -/
theorem c3_split_underflow_panic :
    HSoln.split ⟨0, 5⟩
      [Cell.unknown, Cell.unknown, Cell.unknown, Cell.filled, Cell.unknown] 1 =
      none := rfl

/-- C2: the claim that every emitted sub-window has length `≥ hint` is
false on the code: on a line of length 9 with cell 1 `filled`, cell 2
`empty`, cell 6 `filled` (rest `unknown`) and hint length 2, the scan
leaves a stale pair in the range queue, and the later `map_and_clean`
call harvests the zero-length capture `(3, 0)`, which the splitter
emits; the run completes normally (no panic). -/
theorem c2_split_emits_too_short_window :
    HSoln.split ⟨0, 9⟩
      [Cell.unknown, Cell.filled, Cell.empty, Cell.unknown, Cell.unknown,
       Cell.unknown, Cell.filled, Cell.unknown, Cell.unknown] 2 =
      some [⟨0, 2⟩, ⟨3, 0⟩, ⟨3, 5⟩] ∧
    (⟨3, 0⟩ : HSoln) ∈ ([⟨0, 2⟩, ⟨3, 0⟩, ⟨3, 5⟩] : List HSoln) ∧
    (⟨3, 0⟩ : HSoln).length < 2 :=
  ⟨rfl, by decide, by decide⟩

theorem split_go_all_unknown (hint off : Nat) (rest : List Cell) :
    ∀ (i min : Nat) (ranges : List (Nat × Nat)) (splits : List HSoln),
      (∀ c ∈ rest, c = Cell.unknown) →
      split_go hint off rest i min ranges splits = some (min, ranges, splits) := by
  induction rest with
  | nil => intro i min ranges splits _; rfl
  | cons c rest ih =>
      intro i min ranges splits hall
      have hc : c = Cell.unknown := hall c (by simp)
      subst hc
      exact ih (i + 1) min ranges splits fun c hc => hall c (by simp [hc])

theorem map_and_clean_empty_queue (range min max : Nat) (clean_all : Bool)
    (h : min ≤ max) :
    RangeQueue.map_and_clean [] range min max clean_all = some ([], min, []) := by
  unfold RangeQueue.map_and_clean
  rw [if_neg (by omega : ¬ max < min)]
  by_cases hc : max - min > range
  · rw [if_pos hc]; rfl
  · rw [if_neg hc]

/-- Unfolding of `HSoln.split` through given results of the scan loop and
the final `map_and_clean`. -/
theorem split_unfold (s : HSoln) (nodes : List Cell) (hint : Nat) (w : List Cell)
    (mn : Nat) (q : List (Nat × Nat)) (spl : List HSoln)
    (caps : List (Nat × Nat)) (mn2 : Nat) (q2 : List (Nat × Nat))
    (hp : s.partition nodes = some w)
    (hgo : split_go hint s.offset w 0 0 [] [] = some (mn, q, spl))
    (hmac : RangeQueue.map_and_clean q hint mn (w.length + 1) true =
      some (caps, mn2, q2)) :
    HSoln.split s nodes hint =
      (if w.length < mn2 then none
       else if w.length - mn2 ≥ hint then
         some ((spl ++ caps.map fun p => ⟨s.offset + p.1, p.2⟩) ++
           [⟨mn2 + s.offset, w.length - mn2⟩])
       else some (spl ++ caps.map fun p => ⟨s.offset + p.1, p.2⟩)) := by
  unfold HSoln.split
  rw [hp]
  dsimp only
  rw [hgo]
  dsimp only
  rw [hmac]

/-- C6: splitting a window in which no cell is solved returns exactly the
input window when its length is `≥ hint`, and nothing when its length is
`< hint`. -/
theorem c6_split_no_solved_cells (nodes : List Cell) (off len hint : Nat)
    (_h1 : 1 ≤ hint) (h2 : off + len ≤ nodes.length)
    (hall : ∀ c ∈ (nodes.drop off).take len, c = Cell.unknown) :
    HSoln.split ⟨off, len⟩ nodes hint =
      some (if hint ≤ len then [⟨off, len⟩] else []) := by
  have hw : ((nodes.drop off).take len).length = len := partition_len nodes off len h2
  have key := split_unfold ⟨off, len⟩ nodes hint ((nodes.drop off).take len)
    0 [] [] [] 0 []
    (partition_pos ⟨off, len⟩ nodes h2)
    (split_go_all_unknown hint off ((nodes.drop off).take len) 0 0 [] [] hall)
    (by rw [hw]; exact map_and_clean_empty_queue hint 0 (len + 1) true (by omega))
  rw [hw] at key
  rw [key]
  by_cases hc : hint ≤ len
  · rw [if_neg (by omega : ¬ len < 0), if_pos (by omega : len - 0 ≥ hint),
      if_pos hc]
    simp
  · rw [if_neg (by omega : ¬ len < 0), if_neg (by omega : ¬ len - 0 ≥ hint),
      if_neg hc]
    simp

theorem c6_witness :
    HSoln.split ⟨1, 3⟩ [Cell.unknown, Cell.unknown, Cell.unknown, Cell.unknown,
      Cell.unknown] 2 = some [⟨1, 3⟩] ∧
    HSoln.split ⟨0, 1⟩ [Cell.unknown, Cell.unknown, Cell.unknown, Cell.unknown,
      Cell.unknown] 2 = some [] := by
  constructor
  · have h := c6_split_no_solved_cells [Cell.unknown, Cell.unknown, Cell.unknown,
      Cell.unknown, Cell.unknown] 1 3 2 (by decide) (by decide) (by decide)
    simpa using h
  · have h := c6_split_no_solved_cells [Cell.unknown, Cell.unknown, Cell.unknown,
      Cell.unknown, Cell.unknown] 0 1 2 (by decide) (by decide) (by decide)
    simpa using h

/-! ### Specification-side functions for the initial-window generator -/

/-- Sum over the hints before index `i` of `(h + 1)` — the claimed offset
of window `i`. -/
def offsetBefore (hints : List Nat) (i : Nat) : Nat :=
  ((hints.take i).map fun item => item + 1).sum

/-- The shared slack `L - (Σ (hᵢ + 1) - 1)`. -/
def genSlack (hints : List Nat) (L : Nat) : Nat :=
  L - ((hints.map fun item => item + 1).sum - 1)

theorem offsetBefore_succ_cons (a : Nat) (rest : List Nat) (i : Nat) :
    offsetBefore (a :: rest) (i + 1) = (a + 1) + offsetBefore rest i := by
  simp [offsetBefore]

theorem genGo_length (hints : List Nat) :
    ∀ len off, (Hint.genGo hints len off).length = hints.length := by
  induction hints with
  | nil => intro len off; rfl
  | cons a rest ih => intro len off; simp [Hint.genGo, ih]

theorem genGo_get? (hints : List Nat) :
    ∀ (len off i hi : Nat), hints.get? i = some hi →
      (Hint.genGo hints len off).get? i =
        some ⟨hi, [⟨off + offsetBefore hints i, len + hi⟩]⟩ := by
  induction hints with
  | nil => intro len off i hi h; simp at h
  | cons a rest ih =>
      intro len off i hi h
      cases i with
      | zero =>
          simp only [List.get?_cons_zero, Option.some.injEq] at h
          subst h
          have h0 : offsetBefore (a :: rest) 0 = 0 := rfl
          simp [Hint.genGo, h0]
      | succ i =>
          simp only [List.get?_cons_succ] at h
          have step := ih len (off + (a + 1)) i hi h
          have e1 : (Hint.genGo (a :: rest) len off).get? (i + 1) =
              (Hint.genGo rest len (off + (a + 1))).get? i := rfl
          rw [e1, step, offsetBefore_succ_cons]
          have : off + (a + 1) + offsetBefore rest i =
              off + ((a + 1) + offsetBefore rest i) := by omega
          rw [this]

theorem offsetBefore_le_sum (hints : List Nat) :
    ∀ i, offsetBefore hints i ≤ (hints.map fun item => item + 1).sum := by
  induction hints with
  | nil => intro i; simp [offsetBefore]
  | cons a rest ih =>
      intro i
      cases i with
      | zero =>
          have h0 : offsetBefore (a :: rest) 0 = 0 := rfl
          rw [h0]
          exact Nat.zero_le _
      | succ i =>
          rw [offsetBefore_succ_cons]
          have := ih i
          simp only [List.map_cons, List.sum_cons]
          omega

theorem offsetBefore_mono (hints : List Nat) :
    ∀ i1 i2, i1 ≤ i2 → offsetBefore hints i1 ≤ offsetBefore hints i2 := by
  induction hints with
  | nil => intro i1 i2 _; simp [offsetBefore]
  | cons a rest ih =>
      intro i1 i2 h
      cases i1 with
      | zero =>
          have h0 : offsetBefore (a :: rest) 0 = 0 := rfl
          rw [h0]
          exact Nat.zero_le _
      | succ i1 =>
          cases i2 with
          | zero => omega
          | succ i2 =>
              rw [offsetBefore_succ_cons, offsetBefore_succ_cons]
              have := ih i1 i2 (by omega)
              omega

theorem offsetBefore_get (hints : List Nat) :
    ∀ i hi, hints.get? i = some hi →
      offsetBefore hints (i + 1) = offsetBefore hints i + (hi + 1) := by
  induction hints with
  | nil => intro i hi h; simp at h
  | cons a rest ih =>
      intro i hi h
      cases i with
      | zero =>
          simp only [List.get?_cons_zero, Option.some.injEq] at h
          subst h
          rw [offsetBefore_succ_cons]
          have h0 : offsetBefore (a :: rest) 0 = 0 := rfl
          have h0' : offsetBefore rest 0 = 0 := rfl
          rw [h0, h0']
          omega
      | succ i =>
          simp only [List.get?_cons_succ] at h
          rw [offsetBefore_succ_cons, offsetBefore_succ_cons, ih i hi h]
          omega

/-- C4: for non-empty positive hints and sufficient line length, the
generator yields one window per hint, in hint order; window `i` sits at
offset `Σ_(j<i) (hⱼ + 1)` with length `hᵢ +` slack; offsets are
non-decreasing and every window satisfies `offset + length ≤ L`. -/
theorem c4_gen_characterization (hints : List Nat) (L : Nat)
    (h1 : hints ≠ []) (h2 : ∀ x ∈ hints, 0 < x)
    (h3 : hints.sum + (hints.length - 1) ≤ L) :
    ∃ r, Hint.gen hints L = some r ∧
      r.length = hints.length ∧
      (∀ i hi, hints.get? i = some hi →
        r.get? i = some ⟨hi, [⟨offsetBefore hints i, hi + genSlack hints L⟩]⟩) ∧
      (∀ i1 i2, i1 ≤ i2 → offsetBefore hints i1 ≤ offsetBefore hints i2) ∧
      (∀ i hi, hints.get? i = some hi →
        offsetBefore hints i + (hi + genSlack hints L) ≤ L) := by
  have hlen : 1 ≤ hints.length := by
    cases hints with
    | nil => exact absurd rfl h1
    | cons a rest => simp
  have hsum := sum_map_add_one hints
  have hgen : Hint.gen hints L = some (Hint.genGo hints (genSlack hints L) 0) := by
    unfold Hint.gen genSlack
    rw [if_neg (by omega : ¬ (hints.map fun item => item + 1).sum = 0),
      if_neg (by omega : ¬ L < (hints.map fun item => item + 1).sum - 1)]
  refine ⟨_, hgen, genGo_length hints _ _, ?_, offsetBefore_mono hints, ?_⟩
  · intro i hi h
    have step := genGo_get? hints (genSlack hints L) 0 i hi h
    rw [step]
    have e1 : 0 + offsetBefore hints i = offsetBefore hints i := by omega
    have e2 : genSlack hints L + hi = hi + genSlack hints L := by omega
    rw [e1, e2]
  · intro i hi h
    have hoff := offsetBefore_get hints i hi h
    have hle := offsetBefore_le_sum hints (i + 1)
    unfold genSlack
    omega

theorem c4_witness :
    offsetBefore [2, 4] 0 ≤ offsetBefore [2, 4] 1 ∧
    offsetBefore [2, 4] 1 + (4 + genSlack [2, 4] 10) ≤ 10 := by
  obtain ⟨r, hgen, hlen, hchar, hmono, hbound⟩ :=
    c4_gen_characterization [2, 4] 10 (by decide) (by decide) (by decide)
  exact ⟨hmono 0 1 (by decide), hbound 1 4 (by decide)⟩

/-! ### Sanity checks mirroring the source's unit tests -/

example :
    HSoln.split ⟨0, 5⟩ [Cell.unknown, Cell.filled, Cell.filled, Cell.unknown,
      Cell.unknown] 3 = some [⟨0, 4⟩] := rfl

example :
    HSoln.split ⟨0, 12⟩ [Cell.unknown, Cell.unknown, Cell.filled, Cell.filled,
      Cell.unknown, Cell.filled, Cell.filled, Cell.unknown, Cell.filled,
      Cell.unknown, Cell.unknown, Cell.unknown] 4 =
      some [⟨0, 4⟩, ⟨5, 4⟩, ⟨8, 4⟩] := rfl

example :
    HSoln.split ⟨0, 12⟩ [Cell.unknown, Cell.unknown, Cell.filled, Cell.unknown,
      Cell.filled, Cell.unknown, Cell.filled, Cell.unknown, Cell.filled,
      Cell.unknown, Cell.unknown, Cell.unknown] 5 =
      some [⟨0, 5⟩, ⟨2, 5⟩, ⟨4, 5⟩, ⟨6, 5⟩] := rfl

example :
    HSoln.split ⟨0, 12⟩ [Cell.unknown, Cell.filled, Cell.filled, Cell.unknown,
      Cell.filled, Cell.unknown, Cell.filled, Cell.unknown, Cell.filled,
      Cell.unknown, Cell.unknown, Cell.unknown] 5 =
      some [⟨0, 5⟩, ⟨4, 5⟩, ⟨6, 5⟩] := rfl

example :
    HSoln.split ⟨0, 10⟩ [Cell.filled, Cell.unknown, Cell.unknown, Cell.unknown,
      Cell.filled, Cell.unknown, Cell.filled, Cell.unknown, Cell.filled,
      Cell.unknown] 5 = some [⟨0, 5⟩, ⟨2, 5⟩, ⟨4, 5⟩] := rfl

example :
    HSoln.is_valid ⟨0, 5⟩ [Cell.filled, Cell.unknown, Cell.filled, Cell.unknown,
      Cell.unknown] 3 = some true := rfl

example :
    HSoln.is_valid ⟨0, 5⟩ [Cell.unknown, Cell.unknown, Cell.unknown, Cell.empty,
      Cell.unknown] 3 = some false := rfl

example :
    Hint.gen [3, 3, 2] 10 =
      some [⟨3, [⟨0, 3⟩]⟩, ⟨3, [⟨4, 3⟩]⟩, ⟨2, [⟨8, 2⟩]⟩] := rfl

example : Hint.gen [3] 10 = some [⟨3, [⟨0, 10⟩]⟩] := rfl
